import Mathlib

/-!
Shallow embedding of `Zeus.py` (class `GREParser`): a parser for a plain-text
GRE vocabulary corpus.  Python strings are modelled as Lean `String`
(logically a `List Char`), Python lists as `List`, the `anchor_dict` as an
association list with newest binding first (so lookup-first models Python's
dict overwrite semantics), and the `root_dict` (a `defaultdict(list)` of
appended words) as the flat list of `(root, word)` pairs in append order.
Recursions whose argument shrinks by more than one element per step
(the tokenizer and the block scanner) take an explicit fuel argument that the
wrapper instantiates with one more than the input length, which is always
sufficient because every step consumes at least one element; this keeps every
definition computable by `decide` / `rfl`.
-/

namespace Zeus

/-- ASCII whitespace, modelling the characters matched by Python `str.strip()`
with no argument and by the regex class `\s` on corpus text. -/
def isPyWs (c : Char) : Bool :=
  c = ' ' || c = '\t' || c = '\n' || c = '\r' || c = '\x0b' || c = '\x0c'

/-- Drop the characters satisfying `p` from both ends of a list
(Python `str.strip` with a character set). -/
def stripBoth (p : Char → Bool) (l : List Char) : List Char :=
  ((l.dropWhile p).reverse.dropWhile p).reverse

/-- Python `s.strip()`: whitespace removed from both ends. -/
def pystrip (s : String) : String := String.mk (stripBoth isPyWs s.data)

/-- Python `s.strip(chars)`: every character of the set removed from both ends. -/
def pyStripSet (cs : List Char) (s : String) : String :=
  String.mk (stripBoth (fun c => c ∈ cs) s.data)

/-- Python `s.startswith(c)` for a single character `c`. -/
def headIs (s : String) (c : Char) : Bool := s.data.head? == some c

/-- Python `s.endswith(c)` for a single character `c`. -/
def lastIs (s : String) (c : Char) : Bool := s.data.getLast? == some c

/-- Characters matched by the regex class `[^\s;]`. -/
def isWordChar (c : Char) : Bool := !isPyWs c && c != ';'

/-- Scan for the first `'>'` in the list: returns the characters before it and
the characters after it.  This is how the greedy `[^>]+>` part of the token
regex behaves: `[^>]+` cannot cross a `'>'`, so `<[^>]+>` matches up to the
first `'>'` (and fails when there is none, or none after at least one
character). -/
def findGt : List Char → Option (List Char × List Char)
  | [] => none
  | c :: cs =>
    if c = '>' then some ([], cs)
    else
      match findGt cs with
      | some (pre, rest) => some (c :: pre, rest)
      | none => none

/-- One scanning pass of `re.findall(r'(<[^>]+>|![^\s;]+|[^\s;]+|;)', line)`
(`GREParser.parse_anchor_line`, line 48).  At each position the alternatives
are tried in order: a bracketed token `<...>` (at a `'<'` that has a later
`'>'` with at least one character in between), then a `!`-word or bare word
(a maximal run of non-whitespace non-semicolon characters — note that both
`![^\s;]+` and `[^\s;]+` produce exactly this run when the position holds a
`'!'`), then a lone `';'`; characters matching nothing (whitespace) are
skipped.  Each step consumes at least one character, so fuel
`length + 1` never runs out. -/
def tokenizeAux : Nat → List Char → List String
  | 0, _ => []
  | _ + 1, [] => []
  | fuel + 1, c :: cs =>
    if c = '<' then
      match findGt cs with
      | some (pre, rest) =>
        if pre = [] then
          String.mk (c :: cs.takeWhile isWordChar) ::
            tokenizeAux fuel (cs.dropWhile isWordChar)
        else
          String.mk ('<' :: pre ++ ['>']) :: tokenizeAux fuel rest
      | none =>
        String.mk (c :: cs.takeWhile isWordChar) ::
          tokenizeAux fuel (cs.dropWhile isWordChar)
    else if c = ';' then ";" :: tokenizeAux fuel cs
    else if isWordChar c then
      String.mk (c :: cs.takeWhile isWordChar) ::
        tokenizeAux fuel (cs.dropWhile isWordChar)
    else tokenizeAux fuel cs

/-- The token list of one anchor line (`re.findall` on line 48 of `Zeus.py`). -/
def tokenize (line : String) : List String :=
  tokenizeAux (line.data.length + 1) line.data

/-- Running state of the token loop in `GREParser.parse_anchor_line`:
the group texts accumulated in `cur` correspond to the Python `cur_meaning`
list, and `groups` collects each closed `cur_meaning` (the Python code joins a
group with spaces the moment it closes; here the closed groups are kept
unjoined and the joins are taken at the very end, which yields the same
meanings list because closed groups are never touched again). -/
structure AnchorAcc where
  anchor : Option String
  synonyms : List String
  antonyms : List String
  groups : List (List String)
  cur : List String
deriving DecidableEq

/-- Python `t.strip('<>!')`, applied to the first token to obtain the anchor. -/
def stripAnchor (t : String) : String := pyStripSet ['<', '>', '!'] t

/-- Python `t[1:-1]`: the text between the angle brackets of a `<...>` token. -/
def innerText (t : String) : String := String.mk ((t.data.drop 1).dropLast)

/-- Python `t[1:]`: the text after the `'!'` of an antonym token. -/
def tailText (t : String) : String := String.mk (t.data.drop 1)

/-- One iteration of the token loop of `GREParser.parse_anchor_line`
(lines 54-70 of `Zeus.py`). -/
def anchorStep (acc : AnchorAcc) (t : String) : AnchorAcc :=
  if t = ";" then
    if acc.cur = [] then acc
    else { acc with groups := acc.groups ++ [acc.cur], cur := [] }
  else
    match acc.anchor with
    | none =>
      let a := stripAnchor t
      { acc with anchor := some a, cur := acc.cur ++ [a] }
    | some _ =>
      if headIs t '!' then
        { acc with antonyms := acc.antonyms ++ [tailText t] }
      else if headIs t '<' && lastIs t '>' then
        { acc with synonyms := acc.synonyms ++ [innerText t],
                   cur := acc.cur ++ [innerText t] }
      else
        { acc with synonyms := acc.synonyms ++ [t], cur := acc.cur ++ [t] }

def initAcc : AnchorAcc := ⟨none, [], [], [], []⟩

def runAnchor (ts : List String) : AnchorAcc := ts.foldl anchorStep initAcc

/-- The `if cur_meaning:` close at end of input (lines 71-72 of `Zeus.py`). -/
def closeGroups (acc : AnchorAcc) : List (List String) :=
  if acc.cur = [] then acc.groups else acc.groups ++ [acc.cur]

/-- Python `' '.join`. -/
def joinSpace : List String → String
  | [] => ""
  | [s] => s
  | s :: rest => s ++ " " ++ joinSpace rest

/-- Python `' '.join(cur_meaning).strip()` (line 57 of `Zeus.py`). -/
def joinMeaning (g : List String) : String := pystrip (joinSpace g)

/-- The closed meaning groups of one anchor line, before joining. -/
def anchorMeaningGroups (line : String) : List (List String) :=
  closeGroups (runAnchor (tokenize line))

/-- `GREParser.parse_anchor_line` (lines 45-73 of `Zeus.py`):
`(anchor, synonyms, antonyms, meanings)`. -/
def parse_anchor_line (line : String) :
    Option String × List String × List String × List String :=
  let acc := runAnchor (tokenize line)
  (acc.anchor, acc.synonyms, acc.antonyms, (closeGroups acc).map joinMeaning)

/-- True when the string has at least one non-whitespace character, i.e.
exactly when its whitespace strip is non-empty. -/
def hasNonWs (s : String) : Bool := s.data.any fun c => !isPyWs c

/-- The text a non-anchor token contributes to the current meaning group has
a non-whitespace character: a `<...>`-shaped token contributes its inner text,
any other non-`!` token contributes itself; semicolon and `!`-headed tokens
contribute nothing, so for them the conditions hold vacuously or for free. -/
def contribOk (t : String) : Prop :=
  ((headIs t '<' && lastIs t '>') = true → hasNonWs (innerText t) = true)
  ∧ (headIs t '!' = false → (headIs t '<' && lastIs t '>') = false →
      hasNonWs t = true)

instance (t : String) : Decidable (contribOk t) := by
  unfold contribOk
  infer_instance

/-- A word derived from a root (the `{'word': w, 'root': root}` dicts built by
`GREParser.parse_derived_block`; both keys are always present). -/
structure DerivedWord where
  word : String
  root : String
deriving DecidableEq

/-- One `{'root': r, 'meaning': m}` entry of a group's `roots` list. -/
structure RootRef where
  root : String
  meaning : String
deriving DecidableEq

/-- The `(root, root_meaning, derived_words)` triple returned by
`GREParser.parse_derived_block` for one `{...}` block. -/
abbrev Block := String × String × List DerivedWord

/-- `re.match(r'\(([^)]+)\):\s*(.*)', first)` (line 111 of `Zeus.py`): the
first line of a block matches when it starts with `'('`, has at least one
non-`')'` character before the first `')'` (the greedy `[^)]+` cannot cross a
`')'`), and that `')'` is immediately followed by `':'`; the captured meaning
is the remainder with leading whitespace removed (greedy `\s*` before `(.*)`).
Returns `(root characters, meaning characters)`. -/
def matchRootLine : List Char → Option (List Char × List Char)
  | '(' :: rest =>
    let inner := rest.takeWhile (fun c => c ≠ ')')
    match rest.dropWhile (fun c => c ≠ ')') with
    | ')' :: ':' :: rest3 =>
      if inner = [] then none else some (inner, rest3.dropWhile isPyWs)
    | _ => none
  | _ => none

/-- `GREParser.parse_derived_block` (lines 107-128 of `Zeus.py`).  The Python
function takes the block's line list, which its only caller guarantees to be
non-empty (`if block_lines:`); here the head and tail are passed separately so
the `lines == []` case (unreachable in the program) needs no counterpart. -/
def parse_derived_block (first : String) (rest : List String) : Block :=
  match matchRootLine first.data with
  | some (root, meaning) =>
    let r := String.mk root
    (r, String.mk meaning, (rest.filter (fun w => w ≠ "")).map fun w => ⟨w, r⟩)
  | none =>
    (first, "", (rest.filter (fun w => w ≠ "")).map fun w => ⟨w, first⟩)

/-- The while-loop of `GREParser.parse_blocks_and_contexts` (lines 75-105 of
`Zeus.py`).  A line whose stripped text starts with `'{'` opens a root block:
the following lines are collected (stripped) up to the next line whose
stripped text starts with `'}'`, the closing line is skipped, and a non-empty
collection is parsed by `parse_derived_block`.  A line starting with `'['`
likewise collects context lines (stripped, then stripped of double quotes) up
to a `']'` line.  Any other line is skipped.  Every iteration consumes at
least one line, so fuel `length + 1` never runs out. -/
def scanAux : Nat → List String → List Block × List String
  | 0, _ => ([], [])
  | _ + 1, [] => ([], [])
  | fuel + 1, l :: rest =>
    if headIs (pystrip l) '{' then
      let blockLines :=
        (rest.takeWhile fun x => !headIs (pystrip x) '}').map pystrip
      let rest2 := (rest.dropWhile fun x => !headIs (pystrip x) '}').drop 1
      let (bs, cs) := scanAux fuel rest2
      match blockLines with
      | [] => (bs, cs)
      | b :: brest => (parse_derived_block b brest :: bs, cs)
    else if headIs (pystrip l) '[' then
      let ctxLines :=
        (rest.takeWhile fun x => !headIs (pystrip x) ']').map
          fun x => pyStripSet ['"'] (pystrip x)
      let rest2 := (rest.dropWhile fun x => !headIs (pystrip x) ']').drop 1
      let (bs, cs) := scanAux fuel rest2
      (bs, ctxLines ++ cs)
    else scanAux fuel rest

/-- `GREParser.parse_blocks_and_contexts`: `(derived_blocks, contexts)`. -/
def parse_blocks_and_contexts (lines : List String) : List Block × List String :=
  scanAux (lines.length + 1) lines

/-- One vocabulary entry (the `group_data` dict built in `GREParser.parse`,
lines 25-33 of `Zeus.py`).  The anchor is an `Option` because
`parse_anchor_line` returns Python `None` for a line with no non-`';'`
token. -/
structure Group where
  anchor : Option String
  synonyms : List String
  antonyms : List String
  meanings : List String
  roots : List RootRef
  derived : List DerivedWord
  contexts : List String
deriving DecidableEq

/-- The `(root, word)` pairs a group's blocks append to `root_dict`, in the
order of the loop of lines 34-41 of `Zeus.py`: for each block first the
group's anchor under the block's root, then each derived word under its own
root. -/
def rootEntriesOf (anchor : Option String) : List Block → List (String × Option String)
  | [] => []
  | b :: bs =>
    (b.1, anchor) :: b.2.2.map (fun dw => (dw.root, some dw.word)) ++
      rootEntriesOf anchor bs

/-- Python `str.split` with a single-character separator. -/
def splitChar (c : Char) : List Char → List (List Char)
  | [] => [[]]
  | x :: xs =>
    let r := splitChar c xs
    if x = c then [] :: r
    else
      match r with
      | [] => [[x]]
      | h :: t => (x :: h) :: t

/-- The non-blank lines of one group text
(`[l for l in group.strip().split('\n') if l.strip()]`, line 19 of `Zeus.py`). -/
def groupLines (text : String) : List String :=
  ((splitChar '\n' (pystrip text).data).map String.mk).filter fun l =>
    pystrip l ≠ ""

/-- The `Group` record and block list built from one group text by the body of
`GREParser.parse` (lines 22-37 of `Zeus.py`); `none` when the group has no
non-blank line (`if not lines: continue`). -/
def groupParts (text : String) : Option (Group × List Block) :=
  match groupLines text with
  | [] => none
  | anchorLine :: rest =>
    let pa := parse_anchor_line anchorLine
    let (blocks, contexts) := parse_blocks_and_contexts rest
    some ({ anchor := pa.1,
            synonyms := pa.2.1,
            antonyms := pa.2.2.1,
            meanings := pa.2.2.2,
            roots := blocks.map fun b => ⟨b.1, b.2.1⟩,
            derived := blocks.foldl (fun acc b => acc ++ b.2.2) [],
            contexts := contexts }, blocks)

/-- The group record of one group text. -/
def groupOf (text : String) : Option Group := (groupParts text).map (·.1)

/-- The parser's index state: `groups`, `anchor_dict` (newest binding first,
so that a front lookup realises Python's dict overwrite), and `root_dict`
(flat `(root, word)` pair list in append order; the word is an `Option`
because the appended anchor can be Python `None`). -/
structure ParserState where
  groups : List Group
  anchor_dict : List (Option String × Group)
  root_dict : List (String × Option String)
deriving DecidableEq

def emptyState : ParserState := ⟨[], [], []⟩

/-- Processing of one group text by `GREParser.parse` (lines 18-43 of
`Zeus.py`): build the group record, append it to `groups`, bind it in
`anchor_dict` (overwriting an earlier binding of the same anchor), and append
its root contributions to `root_dict`. -/
def parseGroup (st : ParserState) (text : String) : ParserState :=
  match groupParts text with
  | none => st
  | some (g, blocks) =>
    { groups := st.groups ++ [g],
      anchor_dict := (g.anchor, g) :: st.anchor_dict,
      root_dict := st.root_dict ++ rootEntriesOf g.anchor blocks }

/-- `GREParser.parse` from a given state over a list of group texts (the
corpus after the blank-line split of line 17 of `Zeus.py`; the regex split
`re.split(r'\n\s*\n', text.strip())` is modelled by taking the resulting
group texts as the input). -/
def loadFrom (st : ParserState) (texts : List String) : ParserState :=
  texts.foldl parseGroup st

/-- Loading a whole corpus, given as its list of group texts. -/
def load (texts : List String) : ParserState := loadFrom emptyState texts

/-- `GREParser.query_anchor`'s lookup `self.anchor_dict.get(anchor)` (line
131 of `Zeus.py`; the printing around it is presentation only).  The `if not
data` test is equivalent to a `None` test because a group dict is never
empty. -/
def query_anchor (st : ParserState) (a : String) : Option Group :=
  st.anchor_dict.lookup (some a)

/-- The words recorded in `root_dict` for a root, in append order. -/
def rootWords (st : ParserState) (r : String) : List (Option String) :=
  (st.root_dict.filter fun p => p.1 = r).map (·.2)

/-- `GREParser.query_root` (lines 154-161 of `Zeus.py`):
`set(self.root_dict.get(root, []))`, with `none` as the "no words found"
outcome when that set is empty; the Python set is modelled as the
de-duplicated word list, whose membership is the set membership. -/
def query_root (st : ParserState) (r : String) : Option (List (Option String)) :=
  let ws := rootWords st r
  if ws = [] then none else some ws.dedup

theorem findGt_eq_none {cs : List Char} (h : '>' ∉ cs) : findGt cs = none := by
  induction cs with
  | nil => rfl
  | cons c cs ih =>
    simp only [List.mem_cons, not_or] at h
    have hc : ¬ c = '>' := fun hcc => h.1 hcc.symm
    simp only [findGt, if_neg hc, ih h.2]

theorem scanAux_nil (fuel : Nat) : scanAux fuel [] = ([], []) := by
  cases fuel <;> rfl

/-- C4: after loading the corpus whose group gives anchor "clear" the root
block with lines "(spec): to see", "spectacle", "spectator", the root lookup
for "spec" returns exactly the words clear, spectacle and spectator (the
Python set is the de-duplicated word list; here it has no duplicates). -/
theorem C4_rootLookupSpec :
    query_root (load ["clear\n\x7b\n(spec): to see\nspectacle\nspectator\n\x7d"])
      "spec" = some [some "clear", some "spectacle", some "spectator"] := by
  decide

/-- C8: a group whose non-anchor lines form the context block with lines
`[`, `"He was obdurate."`, `]` yields the contexts list
`["He was obdurate."]`, with the enclosing double quotes stripped. -/
theorem C8_context_block :
    parse_blocks_and_contexts ["[", "\"He was obdurate.\"", "]"] =
      ([], ["He was obdurate."])
    ∧ (groupOf "obdurate\n[\n\"He was obdurate.\"\n]").map Group.contexts =
      some ["He was obdurate."] := by
  exact ⟨by decide, by decide⟩

/-- C6: when the first line of a block does not match `(ROOT): MEANING`, the
root-derivation parser uses the entire first line verbatim as the root, the
empty string as the root meaning, and attaches every subsequent non-empty
line as a derived word whose root field is that first line, so the block
still yields a root and a (possibly empty) derived-word list. -/
theorem C6_fallbackRoot (first : String) (rest : List String)
    (h : matchRootLine first.data = none) :
    parse_derived_block first rest =
      (first, "", (rest.filter fun w => w ≠ "").map fun w => ⟨w, first⟩) := by
  simp only [parse_derived_block, h]

theorem C6_fallbackRoot_witness :
    matchRootLine ("spect").data = none ∧
    parse_derived_block "spect" ["spectacle", "", "spectator"] =
      ("spect", "",
        [⟨"spectacle", "spect"⟩, ⟨"spectator", "spect"⟩]) := by
  refine ⟨by decide, ?_⟩
  rw [C6_fallbackRoot "spect" ["spectacle", "", "spectator"] (by decide)]
  decide

/-- C7 (amended): the tokenizer is total by construction and never raises; a
fragment beginning with a `<` that has no closing `>` anywhere in the rest of
the line is emitted as the maximal bare-word run starting at the `<` — a
token whose text contains the literal `<`, does not start with `!` and does
not end with `>`, so the anchor-line parser treats it as a bare word.  (The
claim's side condition "no closing `>` before whitespace or semicolon" is
wrong: the bracket alternative `<[^>]+>` crosses whitespace and semicolons,
see the counterexample.) -/
theorem C7_unterminated_bracket (line : String) (cs : List Char)
    (h1 : line.data = '<' :: cs) (h2 : '>' ∉ cs) :
    (tokenize line).head? =
      some (String.mk ('<' :: cs.takeWhile isWordChar))
    ∧ '<' ∈ ('<' :: cs.takeWhile isWordChar)
    ∧ headIs (String.mk ('<' :: cs.takeWhile isWordChar)) '!' = false
    ∧ lastIs (String.mk ('<' :: cs.takeWhile isWordChar)) '>' = false := by
  refine ⟨?_, List.mem_cons_self _ _, rfl, ?_⟩
  · unfold tokenize
    rw [h1]
    simp only [List.length_cons, tokenizeAux, if_pos rfl, findGt_eq_none h2]
    rfl
  · rw [Bool.eq_false_iff]
    intro hb
    have hlast : ('<' :: cs.takeWhile isWordChar).getLast? = some '>' := by
      simpa [lastIs] using hb
    have hmem := List.mem_of_getLast?_eq_some hlast
    rcases List.mem_cons.mp hmem with hc | hc
    · exact absurd hc (by decide)
    · exact h2 ((List.takeWhile_sublist isWordChar).subset hc)

/-- C7 counterexample: in `"x <a b>"` the fragment starting at `<` has no
closing `>` before whitespace, yet it is not classified as a bare word: the
regex matches the single bracket token `<a b>`, and the anchor-line parser
records the synonym `a b` (brackets stripped), not a bare word `<a`. -/
theorem C7_counterexample :
    tokenize "x <a b>" = ["x", "<a b>"]
    ∧ (parse_anchor_line "x <a b>").2.1 = ["a b"] := by
  exact ⟨by decide, by decide⟩

theorem C7_unterminated_bracket_witness :
    ("<ab cd").data = '<' :: ("ab cd").data
    ∧ '>' ∉ ("ab cd").data
    ∧ (tokenize "<ab cd").head? =
        some (String.mk ('<' :: (("ab cd").data.takeWhile isWordChar)))
    ∧ lastIs (String.mk ('<' :: (("ab cd").data.takeWhile isWordChar))) '>'
        = false := by
  have h := C7_unterminated_bracket "<ab cd" ("ab cd").data rfl (by decide)
  exact ⟨rfl, by decide, h.1, h.2.2.2⟩

/-- C10: the block scanner is total (it is a function on arbitrary finite
line lists, with fuel that every step keeps positive); when a `{` line has no
later line starting with `}` (resp. a `[` line no later `]` line), every
remaining line of the group is captured into that block and scanning ends at
the end of the group: nothing follows the one block (resp. the context
lines). -/
theorem C10_unclosed_block_scan (l : String) (rest : List String) :
    ((headIs (pystrip l) '{' = true) →
      (∀ x ∈ rest, headIs (pystrip x) '}' = false) →
      parse_blocks_and_contexts (l :: rest) =
        (match rest.map pystrip with
         | [] => ([], [])
         | b :: br => ([parse_derived_block b br], [])))
    ∧ ((headIs (pystrip l) '{' = false) → (headIs (pystrip l) '[' = true) →
      (∀ x ∈ rest, headIs (pystrip x) ']' = false) →
      parse_blocks_and_contexts (l :: rest) =
        ([], rest.map fun x => pyStripSet ['"'] (pystrip x))) := by
  constructor
  · intro hcurly hclose
    have htake : (rest.takeWhile fun x => !headIs (pystrip x) '}') = rest :=
      List.takeWhile_eq_self_iff.mpr (by intro x hx; simp [hclose x hx])
    have hdrop : (rest.dropWhile fun x => !headIs (pystrip x) '}') = [] :=
      List.dropWhile_eq_nil_iff.mpr (by intro x hx; simp [hclose x hx])
    unfold parse_blocks_and_contexts
    simp only [List.length_cons, scanAux, hcurly, if_pos, htake, hdrop,
      List.drop_nil, scanAux_nil]
  · intro hcurly hsq hclose
    have htake : (rest.takeWhile fun x => !headIs (pystrip x) ']') = rest :=
      List.takeWhile_eq_self_iff.mpr (by intro x hx; simp [hclose x hx])
    have hdrop : (rest.dropWhile fun x => !headIs (pystrip x) ']') = [] :=
      List.dropWhile_eq_nil_iff.mpr (by intro x hx; simp [hclose x hx])
    unfold parse_blocks_and_contexts
    simp only [List.length_cons, scanAux, hcurly, hsq, if_pos, htake, hdrop,
      List.drop_nil, scanAux_nil]
    simp

theorem C10_unclosed_block_scan_witness :
    (headIs (pystrip "\x7b") '{' = true)
    ∧ (∀ x ∈ ["(r): m", "w"], headIs (pystrip x) '}' = false)
    ∧ parse_blocks_and_contexts ["\x7b", "(r): m", "w"] =
        ([("r", "m", [⟨"w", "r"⟩])], [])
    ∧ parse_blocks_and_contexts ["[", "\"q\""] = ([], ["q"]) := by
  refine ⟨by decide, by decide, ?_, ?_⟩
  · rw [(C10_unclosed_block_scan "\x7b" ["(r): m", "w"]).1 (by decide)
      (by decide)]
    decide
  · rw [(C10_unclosed_block_scan "[" ["\"q\""]).2 (by decide) (by decide)
      (by decide)]
    decide

/-- C5: the root lookup returns the not-found signal exactly when no word at
all is recorded for the root in `root_dict` (with the pair-list model of the
`defaultdict`, "absent or mapped to an empty collection" is exactly "no
recorded pair"); otherwise it returns a duplicate-free list whose members are
exactly the words recorded for the root. -/
theorem C5_queryRootSpec (st : ParserState) (r : String) :
    (query_root st r = none ↔ ∀ w, (r, w) ∉ st.root_dict)
    ∧ (∀ ws, query_root st r = some ws →
        ws.Nodup ∧ ∀ w, (w ∈ ws ↔ (r, w) ∈ st.root_dict)) := by
  have key : ∀ w : Option String, (r, w) ∈ st.root_dict ↔ w ∈ rootWords st r := by
    intro w
    simp only [rootWords, List.mem_map, List.mem_filter]
    constructor
    · intro h
      exact ⟨(r, w), ⟨h, by simp⟩, rfl⟩
    · rintro ⟨⟨r', w'⟩, ⟨hmem, hr⟩, hw⟩
      simp only [decide_eq_true_eq] at hr
      cases hr
      cases hw
      exact hmem
  constructor
  · constructor
    · intro hnone w hmem
      by_cases hws : rootWords st r = []
      · have hh : w ∈ rootWords st r := (key w).mp hmem
        rw [hws] at hh
        exact absurd hh (List.not_mem_nil w)
      · simp [query_root, hws] at hnone
    · intro hall
      have hnil : rootWords st r = [] := by
        cases hcase : rootWords st r with
        | nil => rfl
        | cons a t =>
          exfalso
          have ha : a ∈ rootWords st r := by
            rw [hcase]; exact List.mem_cons_self a t
          exact hall a ((key a).mpr ha)
      simp [query_root, hnil]
  · intro ws hws
    by_cases h : rootWords st r = []
    · simp [query_root, h] at hws
    · simp only [query_root, if_neg h, Option.some.injEq] at hws
      subst hws
      exact ⟨List.nodup_dedup _,
        fun w => by rw [List.mem_dedup, ← key]⟩

theorem C5_queryRootSpec_witness :
    query_root ⟨[], [], [("r", some "a"), ("r", some "a")]⟩ "zz" = none
    ∧ query_root ⟨[], [], [("r", some "a"), ("r", some "a")]⟩ "r" =
        some [some "a"]
    ∧ (some "a" ∈ [some "a"] ↔
        ("r", some "a") ∈ [("r", some "a"), ("r", some "a")]) := by
  refine ⟨(C5_queryRootSpec ⟨[], [], [("r", some "a"), ("r", some "a")]⟩
    "zz").1.mpr ?_, by decide, ?_⟩
  · intro w
    simp
  · exact ((C5_queryRootSpec ⟨[], [], [("r", some "a"), ("r", some "a")]⟩
      "r").2 [some "a"] (by decide)).2 (some "a")

/-- One token moves the closed-group count up by at most one, and only a
semicolon token can move it. -/
theorem anchorStep_groups_le (acc : AnchorAcc) (t : String) :
    (anchorStep acc t).groups.length ≤
      acc.groups.length + (if t = ";" then 1 else 0) := by
  unfold anchorStep
  by_cases ht : t = ";"
  · simp only [if_pos ht]
    by_cases hc : acc.cur = [] <;> simp [hc]
  · simp only [if_neg ht]
    cases acc.anchor
    · simp
    · by_cases h1 : headIs t '!'
      · simp [h1]
      · by_cases h2 : headIs t '<' && lastIs t '>' <;> simp [h1, h2]

theorem runAnchor_groups_le (ts : List String) (acc : AnchorAcc) :
    (ts.foldl anchorStep acc).groups.length ≤
      acc.groups.length + ts.count ";" := by
  induction ts generalizing acc with
  | nil => simp
  | cons t ts ih =>
    refine le_trans (ih (anchorStep acc t)) ?_
    by_cases ht : t = ";"
    · subst ht
      have hstep : (anchorStep acc ";").groups.length ≤ acc.groups.length + 1 := by
        simpa using anchorStep_groups_le acc ";"
      have hc : List.count ";" (";" :: ts) = List.count ";" ts + 1 :=
        List.count_cons_self ";" ts
      rw [hc]
      omega
    · have hstep : (anchorStep acc t).groups.length ≤ acc.groups.length := by
        simpa [ht] using anchorStep_groups_le acc t
      have hc : List.count ";" (t :: ts) = List.count ";" ts :=
        List.count_cons_of_ne (fun hh => ht hh.symm) ts
      rw [hc]
      omega

/-- C1 (amended): an anchor line with `k` semicolon tokens parses to at most
`k + 1` meaning strings; the count falls short of `k + 1` when a semicolon
arrives while the in-progress group is empty, or the line ends with an empty
in-progress group (see the counterexample). -/
theorem C1_meanings_at_most (line : String) :
    (parse_anchor_line line).2.2.2.length ≤ (tokenize line).count ";" + 1 := by
  have h := runAnchor_groups_le (tokenize line) initAcc
  rw [show initAcc.groups.length = 0 from rfl, Nat.zero_add] at h
  simp only [parse_anchor_line, List.length_map, closeGroups, runAnchor]
  split
  · omega
  · rw [List.length_append]
    simp only [List.length_singleton]
    omega

theorem dropWhile_head_false (p : Char → Bool) :
    ∀ (l : List Char) (c : Char) (cs : List Char),
      l.dropWhile p = c :: cs → p c = false := by
  intro l
  induction l with
  | nil => intro c cs h; cases h
  | cons x xs ih =>
    intro c cs h
    rw [List.dropWhile_cons] at h
    by_cases hx : p x
    · rw [if_pos hx] at h
      exact ih c cs h
    · rw [if_neg hx] at h
      cases h
      exact Bool.eq_false_iff.mpr hx

/-- The head of a both-ends strip does not satisfy the strip predicate
(the head survives the front strip, and the back strip only removes a
suffix). -/
theorem stripBoth_head (p : Char → Bool) (l : List Char) {c : Char}
    {cs : List Char} (h : stripBoth p l = c :: cs) : p c = false := by
  unfold stripBoth at h
  have hsuf : ((l.dropWhile p).reverse.dropWhile p) <:+ (l.dropWhile p).reverse :=
    List.dropWhile_suffix p
  obtain ⟨pre, hpre⟩ := hsuf
  have hfront : l.dropWhile p =
      ((l.dropWhile p).reverse.dropWhile p).reverse ++ pre.reverse := by
    have := congrArg List.reverse hpre
    simpa [List.reverse_append] using this.symm
  rw [h] at hfront
  exact dropWhile_head_false p l c (cs ++ pre.reverse) (by simpa using hfront)

/-- A token whose text starts with `'!'` can never be the stripped anchor of
any token: stripping `'<'`, `'>'`, `'!'` leaves a text that does not start
with `'!'`. -/
theorem stripAnchor_ne_bang {t : String} (hbang : headIs t '!' = true)
    (u : String) : stripAnchor u ≠ t := by
  intro he
  have hdata : stripBoth (fun c => c ∈ ['<', '>', '!']) u.data = t.data := by
    have := congrArg String.data he
    simpa [stripAnchor, pyStripSet] using this
  obtain ⟨tl, htl⟩ : ∃ tl, t.data = '!' :: tl := by
    simp only [headIs, beq_iff_eq] at hbang
    cases hd : t.data with
    | nil => rw [hd] at hbang; cases hbang
    | cons x xs =>
      rw [hd] at hbang
      simp only [List.head?_cons, Option.some.injEq] at hbang
      exact ⟨xs, by rw [hbang]⟩
  rw [htl] at hdata
  have := stripBoth_head (fun c => c ∈ ['<', '>', '!']) u.data hdata
  simp at this

theorem headIs_bang_ne_semi {t : String} (hbang : headIs t '!' = true) :
    t ≠ ";" := by
  intro he
  rw [he] at hbang
  cases hbang

theorem anchorStep_anchor_some {acc : AnchorAcc} {a : String} (t : String)
    (h : acc.anchor = some a) : (anchorStep acc t).anchor = some a := by
  unfold anchorStep
  by_cases h1 : t = ";"
  · simp only [if_pos h1]
    by_cases h2 : acc.cur = [] <;> simp [h2, h]
  · simp only [if_neg h1, h]
    by_cases h2 : headIs t '!'
    · simp [h2]
    · by_cases h3 : headIs t '<' && lastIs t '>' <;> simp [h2, h3]

theorem anchorStep_antonyms_eq (acc : AnchorAcc) (t : String) :
    (anchorStep acc t).antonyms = acc.antonyms ∨
    (anchorStep acc t).antonyms = acc.antonyms ++ [tailText t] := by
  unfold anchorStep
  by_cases h1 : t = ";"
  · simp only [if_pos h1]
    by_cases h2 : acc.cur = [] <;> simp [h2]
  · simp only [if_neg h1]
    cases acc.anchor
    · simp
    · by_cases h2 : headIs t '!'
      · simp [h2]
      · by_cases h3 : headIs t '<' && lastIs t '>' <;> simp [h2, h3]

theorem foldl_antonyms_mem (ts : List String) (acc : AnchorAcc) {x : String}
    (h : x ∈ acc.antonyms) : x ∈ (ts.foldl anchorStep acc).antonyms := by
  induction ts generalizing acc with
  | nil => simpa
  | cons t ts ih =>
    apply ih
    rcases anchorStep_antonyms_eq acc t with he | he <;> rw [he]
    · exact h
    · exact List.mem_append_left _ h

theorem foldl_anchor_stays (ts : List String) (acc : AnchorAcc) (a : String)
    (ha : acc.anchor = some a) :
    (ts.foldl anchorStep acc).anchor = some a := by
  induction ts generalizing acc with
  | nil => simpa
  | cons v vs ih => exact ih (anchorStep acc v) (anchorStep_anchor_some v ha)

theorem foldl_anchor_isSome (ts : List String) (acc : AnchorAcc)
    (h : ∃ u ∈ ts, u ≠ ";") :
    ((ts.foldl anchorStep acc).anchor).isSome := by
  induction ts generalizing acc with
  | nil => obtain ⟨u, hu, _⟩ := h; cases hu
  | cons t ts ih =>
    by_cases hsome : ((anchorStep acc t).anchor).isSome
    · obtain ⟨a, ha⟩ := Option.isSome_iff_exists.mp hsome
      rw [List.foldl_cons, foldl_anchor_stays ts (anchorStep acc t) a ha]
      rfl
    · apply ih
      obtain ⟨u, hu, hne⟩ := h
      rcases List.mem_cons.mp hu with rfl | hu2
      · exfalso
        apply hsome
        unfold anchorStep
        simp only [if_neg hne]
        cases hacc : acc.anchor
        · simp
        · by_cases h2 : headIs u '!'
          · simp [h2]
          · by_cases h3 : headIs u '<' && lastIs u '>' <;> simp [h2, h3]
      · exact ⟨u, hu2, hne⟩

/-- Preservation: a `!`-headed token text `t` never enters a meaning group,
provided no bracket token of the line smuggles exactly `t` in as its inner
text. -/
theorem anchorStep_avoid {t : String} (hbang : headIs t '!' = true)
    (acc : AnchorAcc) (u : String)
    (hu : (headIs u '<' && lastIs u '>') = true → innerText u ≠ t)
    (hg : ∀ g ∈ acc.groups, t ∉ g) (hc : t ∉ acc.cur) :
    (∀ g ∈ (anchorStep acc u).groups, t ∉ g) ∧ t ∉ (anchorStep acc u).cur := by
  unfold anchorStep
  by_cases h1 : u = ";"
  · simp only [if_pos h1]
    by_cases h2 : acc.cur = []
    · simp only [if_pos h2]
      exact ⟨hg, hc⟩
    · simp only [if_neg h2]
      refine ⟨?_, by simp⟩
      intro g hgm
      rcases List.mem_append.mp hgm with hgm | hgm
      · exact hg g hgm
      · rw [List.mem_singleton.mp hgm]
        exact hc
  · simp only [if_neg h1]
    cases hacc : acc.anchor with
    | none =>
      refine ⟨hg, ?_⟩
      intro hmem
      rcases List.mem_append.mp hmem with hmem | hmem
      · exact hc hmem
      · exact stripAnchor_ne_bang hbang u (List.mem_singleton.mp hmem).symm
    | some a =>
      by_cases h2 : headIs u '!' = true
      · simp only [h2, if_true]
        exact ⟨hg, hc⟩
      · by_cases h3 : (headIs u '<' && lastIs u '>') = true
        · simp only [h2, h3, if_true, if_false, Bool.false_eq_true]
          refine ⟨hg, ?_⟩
          intro hmem
          rcases List.mem_append.mp hmem with hmem | hmem
          · exact hc hmem
          · exact hu h3 (List.mem_singleton.mp hmem).symm
        · simp only [h2, h3, if_false, Bool.false_eq_true]
          refine ⟨hg, ?_⟩
          intro hmem
          rcases List.mem_append.mp hmem with hmem | hmem
          · exact hc hmem
          · have hut : u = t := (List.mem_singleton.mp hmem).symm
            rw [hut] at h2
            exact h2 hbang

theorem foldl_avoid {t : String} (hbang : headIs t '!' = true)
    (ts : List String) (acc : AnchorAcc)
    (hts : ∀ u ∈ ts, (headIs u '<' && lastIs u '>') = true → innerText u ≠ t)
    (hg : ∀ g ∈ acc.groups, t ∉ g) (hc : t ∉ acc.cur) :
    (∀ g ∈ (ts.foldl anchorStep acc).groups, t ∉ g)
    ∧ t ∉ (ts.foldl anchorStep acc).cur := by
  induction ts generalizing acc with
  | nil => exact ⟨hg, hc⟩
  | cons u us ih =>
    have hstep :=
      anchorStep_avoid hbang acc u (hts u (List.mem_cons_self u us)) hg hc
    exact ih (anchorStep acc u)
      (fun v hv => hts v (List.mem_cons_of_mem u hv)) hstep.1 hstep.2

theorem mem_closeGroups {acc : AnchorAcc} {g : List String}
    (h : g ∈ closeGroups acc) :
    g ∈ acc.groups ∨ (g = acc.cur ∧ acc.cur ≠ []) := by
  unfold closeGroups at h
  by_cases hc : acc.cur = []
  · rw [if_pos hc] at h
    exact Or.inl h
  · rw [if_neg hc] at h
    rcases List.mem_append.mp h with h | h
    · exact Or.inl h
    · exact Or.inr ⟨List.mem_singleton.mp h, hc⟩

/-- C2 (amended): a token `!X` in non-anchor position (some earlier token of
the line is not a semicolon) always puts `X` into the antonyms list, and its
text `!X` is never itself an element of any meaning group — provided no
`<...>` token of the line has exactly `!X` as its bracket-stripped inner text
(such a synonym re-introduces the text into a meaning group, see the
counterexample; and a `!X` token in anchor position becomes the anchor
instead of an antonym). -/
theorem C2_antonyms_excluded (line : String) (ts1 ts2 : List String)
    (t : String)
    (hdec : tokenize line = ts1 ++ t :: ts2)
    (hfirst : ∃ u ∈ ts1, u ≠ ";")
    (hbang : headIs t '!' = true)
    (hinner : ∀ u ∈ tokenize line,
      (headIs u '<' && lastIs u '>') = true → innerText u ≠ t) :
    tailText t ∈ (parse_anchor_line line).2.2.1
    ∧ t ∉ (anchorMeaningGroups line).flatten := by
  have hrun : runAnchor (tokenize line) =
      ts2.foldl anchorStep (anchorStep (ts1.foldl anchorStep initAcc) t) := by
    unfold runAnchor
    rw [hdec, List.foldl_append, List.foldl_cons]
  constructor
  · obtain ⟨a, ha⟩ :=
      Option.isSome_iff_exists.mp (foldl_anchor_isSome ts1 initAcc hfirst)
    have hmem : tailText t ∈
        (anchorStep (ts1.foldl anchorStep initAcc) t).antonyms := by
      have hne := headIs_bang_ne_semi hbang
      simp only [anchorStep, if_neg hne, ha, hbang, if_true]
      exact List.mem_append_right _ (List.mem_singleton_self _)
    have hfin := foldl_antonyms_mem ts2 _ hmem
    show tailText t ∈ (runAnchor (tokenize line)).antonyms
    rw [hrun]
    exact hfin
  · have h := foldl_avoid hbang (tokenize line) initAcc hinner
      (by simp [initAcc]) (by simp [initAcc])
    intro hj
    rw [List.mem_flatten] at hj
    obtain ⟨g, hgm, htg⟩ := hj
    have hgm2 : g ∈ closeGroups (runAnchor (tokenize line)) := hgm
    rcases mem_closeGroups hgm2 with hcase | ⟨hcase, _⟩
    · exact h.1 g hcase htg
    · rw [hcase] at htg
      exact h.2 htg

/-- C2 counterexample: on the line `"!a <!b> !b"` the token `!a` sits in
anchor position, so `"a"` is not recorded as an antonym (the claim requires
it); and the token `!b` yields antonym `"b"`, yet its full text `!b` appears
in the meaning group (smuggled in by the synonym token `<!b>`), so it also
appears in the meaning string `"a !b"`. -/
theorem C2_counterexample :
    tokenize "!a <!b> !b" = ["!a", "<!b>", "!b"]
    ∧ (parse_anchor_line "!a <!b> !b").2.2.1 = ["b"]
    ∧ "a" ∉ (parse_anchor_line "!a <!b> !b").2.2.1
    ∧ "!b" ∈ (anchorMeaningGroups "!a <!b> !b").flatten
    ∧ (parse_anchor_line "!a <!b> !b").2.2.2 = ["a !b"] := by
  exact ⟨by decide, by decide, by decide, by decide, by decide⟩

theorem C2_antonyms_excluded_witness :
    (tokenize "x !bad y" = ["x"] ++ "!bad" :: ["y"])
    ∧ headIs "!bad" '!' = true
    ∧ tailText "!bad" ∈ (parse_anchor_line "x !bad y").2.2.1
    ∧ "!bad" ∉ (anchorMeaningGroups "x !bad y").flatten := by
  have h := C2_antonyms_excluded "x !bad y" ["x"] ["y"] "!bad" (by decide)
    ⟨"x", by decide, by decide⟩ (by decide) (by decide)
  exact ⟨by decide, by decide, h.1, h.2⟩

theorem all_of_stripBoth_eq_nil {p : Char → Bool} {l : List Char}
    (h : stripBoth p l = []) : ∀ c ∈ l, p c = true := by
  unfold stripBoth at h
  have h2 : (l.dropWhile p).reverse.dropWhile p = [] :=
    List.reverse_eq_nil_iff.mp h
  have h3 : ∀ c ∈ (l.dropWhile p).reverse, p c = true :=
    List.dropWhile_eq_nil_iff.mp h2
  have h4 : ∀ c ∈ l.dropWhile p, p c = true := fun c hc =>
    h3 c (List.mem_reverse.mpr hc)
  intro c hc
  rw [← List.takeWhile_append_dropWhile (p := p) (l := l)] at hc
  rcases List.mem_append.mp hc with hc | hc
  · exact List.mem_takeWhile_imp hc
  · exact h4 c hc

theorem pystrip_ne_empty {s : String} (h : hasNonWs s = true) :
    pystrip s ≠ "" := by
  intro he
  have hdata : stripBoth isPyWs s.data = [] := by
    have hd := congrArg String.data he
    simpa [pystrip] using hd
  obtain ⟨c, hc, hnw⟩ := List.any_eq_true.mp h
  have hp := all_of_stripBoth_eq_nil hdata c hc
  rw [hp] at hnw
  cases hnw

theorem hasNonWs_joinSpace {s : String} (g : List String)
    (hs : hasNonWs s = true) :
    hasNonWs (joinSpace (s :: g)) = true := by
  cases g with
  | nil => simpa [joinSpace]
  | cons s2 g2 =>
    show (((s ++ " ") ++ joinSpace (s2 :: g2)).data.any fun c => !isPyWs c) = true
    rw [show ((s ++ " ") ++ joinSpace (s2 :: g2)).data =
      (s.data ++ (" " : String).data) ++ (joinSpace (s2 :: g2)).data from rfl]
    simp only [List.any_append, Bool.or_eq_true]
    exact Or.inl (Or.inl hs)

theorem joinMeaning_ne_empty {g : List String} (hne : g ≠ [])
    (hall : ∀ s ∈ g, hasNonWs s = true) : joinMeaning g ≠ "" := by
  cases g with
  | nil => exact absurd rfl hne
  | cons s g2 =>
    exact pystrip_ne_empty (hasNonWs_joinSpace g2 (hall s (List.mem_cons_self s g2)))

/-- Preservation: when the anchor is set, every closed or in-progress meaning
group keeps all its member strings non-whitespace-bearing, provided the
incoming token's contribution does. -/
theorem anchorStep_nonWs {acc : AnchorAcc} {a : String} (u : String)
    (ha : acc.anchor = some a) (hu : contribOk u)
    (hg : ∀ g ∈ acc.groups, g ≠ [] ∧ ∀ s ∈ g, hasNonWs s = true)
    (hc : ∀ s ∈ acc.cur, hasNonWs s = true) :
    (∀ g ∈ (anchorStep acc u).groups, g ≠ [] ∧ ∀ s ∈ g, hasNonWs s = true)
    ∧ (∀ s ∈ (anchorStep acc u).cur, hasNonWs s = true) := by
  unfold anchorStep
  by_cases h1 : u = ";"
  · simp only [if_pos h1]
    by_cases h2 : acc.cur = []
    · simp only [if_pos h2]
      exact ⟨hg, hc⟩
    · simp only [if_neg h2]
      refine ⟨?_, by simp⟩
      intro g hgm
      rcases List.mem_append.mp hgm with hgm | hgm
      · exact hg g hgm
      · rw [List.mem_singleton.mp hgm]
        exact ⟨h2, hc⟩
  · simp only [if_neg h1, ha]
    by_cases h2 : headIs u '!' = true
    · simp only [h2, if_true]
      exact ⟨hg, hc⟩
    · by_cases h3 : (headIs u '<' && lastIs u '>') = true
      · simp only [h2, h3, if_true, Bool.false_eq_true, if_false]
        refine ⟨hg, ?_⟩
        intro s hs
        rcases List.mem_append.mp hs with hs | hs
        · exact hc s hs
        · rw [List.mem_singleton.mp hs]
          exact hu.1 h3
      · simp only [h2, h3, Bool.false_eq_true, if_false]
        refine ⟨hg, ?_⟩
        intro s hs
        rcases List.mem_append.mp hs with hs | hs
        · exact hc s hs
        · rw [List.mem_singleton.mp hs]
          exact hu.2 (by simpa using h2) (by simpa using h3)

theorem foldl_nonWs {a : String} (ts : List String) (acc : AnchorAcc)
    (ha : acc.anchor = some a)
    (hts : ∀ u ∈ ts, contribOk u)
    (hg : ∀ g ∈ acc.groups, g ≠ [] ∧ ∀ s ∈ g, hasNonWs s = true)
    (hc : ∀ s ∈ acc.cur, hasNonWs s = true) :
    (∀ g ∈ (ts.foldl anchorStep acc).groups,
      g ≠ [] ∧ ∀ s ∈ g, hasNonWs s = true)
    ∧ (∀ s ∈ (ts.foldl anchorStep acc).cur, hasNonWs s = true) := by
  induction ts generalizing acc with
  | nil => exact ⟨hg, hc⟩
  | cons u us ih =>
    have hstep := anchorStep_nonWs u ha (hts u (List.mem_cons_self u us)) hg hc
    exact ih (anchorStep acc u) (anchorStep_anchor_some u ha)
      (fun v hv => hts v (List.mem_cons_of_mem u hv)) hstep.1 hstep.2

theorem foldl_semis : ∀ ts : List String, (∀ u ∈ ts, u = ";") →
    ts.foldl anchorStep initAcc = initAcc := by
  intro ts
  induction ts with
  | nil => intro _; rfl
  | cons u us ih =>
    intro h
    have hu : u = ";" := h u (List.mem_cons_self u us)
    rw [List.foldl_cons, hu]
    have hstep : anchorStep initAcc ";" = initAcc := by
      unfold anchorStep
      simp [initAcc]
    rw [hstep]
    exact ih fun v hv => h v (List.mem_cons_of_mem u hv)

/-- C9 (amended): every meaning string of an anchor line is non-empty,
provided the anchor token keeps a non-whitespace character after stripping
`<>!` and every later token's meaning-group contribution (the inner text of a
`<...>` token, the token itself when bare) has a non-whitespace character;
leading semicolon tokens before the anchor are allowed.  The mechanism part
of the claim is exact — an empty in-progress group is never closed into a
meaning — but a non-empty group whose contributions are all whitespace joins
and strips to the empty string (see the counterexample), so the proviso is
needed. -/
theorem C9_meanings_nonempty (line : String) (ts1 ts2 : List String)
    (t0 : String)
    (hdec : tokenize line = ts1 ++ t0 :: ts2)
    (hsemi : ∀ u ∈ ts1, u = ";")
    (ht0 : t0 ≠ ";")
    (hanc : hasNonWs (stripAnchor t0) = true)
    (hts2 : ∀ u ∈ ts2, contribOk u) :
    "" ∉ (parse_anchor_line line).2.2.2 := by
  have hrun : runAnchor (tokenize line) =
      ts2.foldl anchorStep (anchorStep initAcc t0) := by
    unfold runAnchor
    rw [hdec, List.foldl_append, foldl_semis ts1 hsemi, List.foldl_cons]
  have hacc1 : anchorStep initAcc t0 =
      { anchor := some (stripAnchor t0), synonyms := [], antonyms := [],
        groups := [], cur := [stripAnchor t0] } := by
    unfold anchorStep
    simp [ht0, initAcc]
  have hfold := foldl_nonWs ts2 (anchorStep initAcc t0)
    (by rw [hacc1])
    hts2
    (by rw [hacc1]; simp)
    (by
      rw [hacc1]
      intro s hs
      rw [List.mem_singleton.mp hs]
      exact hanc)
  intro hmem
  have hmem2 : "" ∈ (closeGroups (runAnchor (tokenize line))).map joinMeaning :=
    hmem
  obtain ⟨g, hgm, hje⟩ := List.mem_map.mp hmem2
  rw [hrun] at hgm
  rcases mem_closeGroups hgm with hcase | ⟨hcase, hne⟩
  · obtain ⟨hgne, hall⟩ := hfold.1 g hcase
    exact joinMeaning_ne_empty hgne hall hje
  · rw [hcase] at hje
    exact joinMeaning_ne_empty hne (hfold.2) hje

/-- C9 counterexample: the line `"!"` parses to `meanings = [""]`: its single
token strips to the empty anchor, which forms a non-empty in-progress group
`[""]` that joins and strips to the empty meaning string. -/
theorem C9_counterexample :
    "" ∈ (parse_anchor_line "!").2.2.2 := by decide

theorem C9_meanings_nonempty_witness :
    (tokenize "a b; c" = [] ++ "a" :: ["b", ";", "c"])
    ∧ hasNonWs (stripAnchor "a") = true
    ∧ "" ∉ (parse_anchor_line "a b; c").2.2.2 := by
  refine ⟨by decide, by decide, ?_⟩
  exact C9_meanings_nonempty "a b; c" [] ["b", ";", "c"] "a" (by decide)
    (by intro u hu; cases hu) (by decide) (by decide) (by decide)

/-- C1 counterexample: the line `"a;;b"` has two semicolon tokens but parses
to only two meanings (`"a"` and `"b"`), not three: the second semicolon finds
an empty in-progress group and contributes no meaning. -/
theorem C1_counterexample :
    (tokenize "a;;b").count ";" = 2
    ∧ (parse_anchor_line "a;;b").2.2.2 = ["a", "b"] := by
  exact ⟨by decide, by decide⟩

theorem parseGroup_eq {st : ParserState} {text : String} {gd : Group}
    {bl : List Block} (h : groupParts text = some (gd, bl)) :
    parseGroup st text =
      { groups := st.groups ++ [gd],
        anchor_dict := (gd.anchor, gd) :: st.anchor_dict,
        root_dict := st.root_dict ++ rootEntriesOf gd.anchor bl } := by
  unfold parseGroup
  rw [h]

theorem parseGroup_rootMem {st : ParserState} (text : String)
    {p : String × Option String} (h : p ∈ st.root_dict) :
    p ∈ (parseGroup st text).root_dict := by
  unfold parseGroup
  cases hgp : groupParts text with
  | none => exact h
  | some pr => exact List.mem_append_left _ h

theorem loadFrom_rootMem (ts : List String) (st : ParserState)
    {p : String × Option String} (h : p ∈ st.root_dict) :
    p ∈ (loadFrom st ts).root_dict := by
  induction ts generalizing st with
  | nil => exact h
  | cons t ts ih => exact ih (parseGroup st t) (parseGroup_rootMem t h)

theorem rootEntriesOf_anchor_mem (anchor : Option String) (bs : List Block)
    {b : Block} (hb : b ∈ bs) :
    (b.1, anchor) ∈ rootEntriesOf anchor bs := by
  induction bs with
  | nil => cases hb
  | cons b2 bs ih =>
    rcases List.mem_cons.mp hb with rfl | hb2
    · exact List.mem_append_left _ (List.mem_cons_self _ _)
    · exact List.mem_append_right _ (ih hb2)

theorem rootEntriesOf_derived_mem (anchor : Option String) (bs : List Block)
    {b : Block} (hb : b ∈ bs) {dw : DerivedWord} (hdw : dw ∈ b.2.2) :
    (dw.root, some dw.word) ∈ rootEntriesOf anchor bs := by
  induction bs with
  | nil => cases hb
  | cons b2 bs ih =>
    rcases List.mem_cons.mp hb with rfl | hb2
    · apply List.mem_append_left
      exact List.mem_cons_of_mem _
        (List.mem_map_of_mem (fun dw => (dw.root, some dw.word)) hdw)
    · exact List.mem_append_right _ (ih hb2)

theorem mem_foldl_blocks {dw : DerivedWord} :
    ∀ (bs : List Block) (init : List DerivedWord),
      dw ∈ bs.foldl (fun acc b => acc ++ b.2.2) init →
      dw ∈ init ∨ ∃ b ∈ bs, dw ∈ b.2.2 := by
  intro bs
  induction bs with
  | nil =>
    intro init h
    exact Or.inl h
  | cons b bs ih =>
    intro init h
    rcases ih (init ++ b.2.2) h with h2 | ⟨b2, hb2, hdw2⟩
    · rcases List.mem_append.mp h2 with h3 | h3
      · exact Or.inl h3
      · exact Or.inr ⟨b, List.mem_cons_self _ _, h3⟩
    · exact Or.inr ⟨b2, List.mem_cons_of_mem _ hb2, hdw2⟩

theorem groupParts_fields {text : String} {gd : Group} {bl : List Block}
    (h : groupParts text = some (gd, bl)) :
    gd.roots = bl.map (fun b => ⟨b.1, b.2.1⟩)
    ∧ gd.derived = bl.foldl (fun acc b => acc ++ b.2.2) [] := by
  unfold groupParts at h
  cases hl : groupLines text with
  | nil =>
    rw [hl] at h
    cases h
  | cons l rest =>
    rw [hl] at h
    simp only [Option.some.injEq, Prod.mk.injEq] at h
    obtain ⟨hgd, hbl⟩ := h
    rw [← hgd, ← hbl]
    exact ⟨rfl, rfl⟩

theorem lookup_cons_ne {k k' : Option String} {v : Group}
    {l : List (Option String × Group)} (h : k' ≠ k) :
    ((k', v) :: l).lookup k = l.lookup k := by
  have hbeq : (k == k') = false := beq_eq_false_iff_ne.mpr fun he => h he.symm
  simp [List.lookup, hbeq]

theorem query_anchor_loadFrom_ne (ts : List String) (st : ParserState)
    (a : String)
    (h : ∀ g' ∈ ts, ∀ gd' bl', groupParts g' = some (gd', bl') →
      gd'.anchor ≠ some a) :
    query_anchor (loadFrom st ts) a = query_anchor st a := by
  induction ts generalizing st with
  | nil => rfl
  | cons g' ts ih =>
    have hstep : query_anchor (parseGroup st g') a = query_anchor st a := by
      unfold parseGroup
      cases hgp : groupParts g' with
      | none => rfl
      | some pr =>
        obtain ⟨gd', bl'⟩ := pr
        have hne := h g' (List.mem_cons_self _ _) gd' bl' hgp
        exact lookup_cons_ne hne
    calc query_anchor (loadFrom st (g' :: ts)) a
        = query_anchor (loadFrom (parseGroup st g') ts) a := rfl
      _ = query_anchor (parseGroup st g') a :=
          ih (parseGroup st g') fun v hv => h v (List.mem_cons_of_mem _ hv)
      _ = query_anchor st a := hstep

/-- C3: when a group text `g` with anchor `a` is loaded and no later group
text has anchor `a`, the anchor lookup for `a` returns exactly `g`'s group
record (last-write-wins); every `root_dict` entry present after the earlier
loads is still present at the end, `g`'s own contributions (its anchor under
each root-block root, and each derived word under its root) are present at
the end, and no single load step ever removes an existing `root_dict`
entry. -/
theorem C3_last_write_wins (st : ParserState) (gts1 gts2 : List String)
    (g : String) (a : String) (gd : Group) (bl : List Block)
    (hg : groupParts g = some (gd, bl))
    (ha : gd.anchor = some a)
    (hlater : ∀ g' ∈ gts2, ∀ gd' bl', groupParts g' = some (gd', bl') →
      gd'.anchor ≠ some a) :
    query_anchor (loadFrom st (gts1 ++ g :: gts2)) a = some gd
    ∧ (∀ p ∈ (loadFrom st gts1).root_dict,
        p ∈ (loadFrom st (gts1 ++ g :: gts2)).root_dict)
    ∧ (∀ rr ∈ gd.roots,
        (rr.root, gd.anchor) ∈ (loadFrom st (gts1 ++ g :: gts2)).root_dict)
    ∧ (∀ dw ∈ gd.derived,
        (dw.root, some dw.word) ∈ (loadFrom st (gts1 ++ g :: gts2)).root_dict)
    ∧ (∀ (st2 : ParserState) (t2 : String),
        ∀ p ∈ st2.root_dict, p ∈ (parseGroup st2 t2).root_dict) := by
  have hdecomp : loadFrom st (gts1 ++ g :: gts2) =
      loadFrom (parseGroup (loadFrom st gts1) g) gts2 := by
    unfold loadFrom
    rw [List.foldl_append, List.foldl_cons]
  have hpg := @parseGroup_eq (loadFrom st gts1) g gd bl hg
  refine ⟨?_, ?_, ?_, ?_, ?_⟩
  · rw [hdecomp, query_anchor_loadFrom_ne gts2 _ a hlater, hpg]
    show ((gd.anchor, gd) :: (loadFrom st gts1).anchor_dict).lookup (some a) =
      some gd
    rw [ha]
    exact List.lookup_cons_self
  · intro p hp
    rw [hdecomp]
    apply loadFrom_rootMem
    rw [hpg]
    exact List.mem_append_left _ hp
  · intro rr hrr
    rw [hdecomp]
    apply loadFrom_rootMem
    rw [hpg]
    apply List.mem_append_right
    obtain ⟨hroots, _⟩ := groupParts_fields hg
    rw [hroots] at hrr
    obtain ⟨b, hb, hbe⟩ := List.mem_map.mp hrr
    have hm := rootEntriesOf_anchor_mem gd.anchor bl hb
    rw [← hbe]
    exact hm
  · intro dw hdw
    rw [hdecomp]
    apply loadFrom_rootMem
    rw [hpg]
    apply List.mem_append_right
    obtain ⟨_, hder⟩ := groupParts_fields hg
    rw [hder] at hdw
    rcases mem_foldl_blocks bl [] hdw with h2 | ⟨b, hb, hdwb⟩
    · cases h2
    · exact rootEntriesOf_derived_mem gd.anchor bl hb hdwb
  · intro st2 t2 p hp
    exact parseGroup_rootMem t2 hp

theorem C3_last_write_wins_witness :
    query_anchor (loadFrom emptyState
        ["a x\n\x7b\n(r1): m1\nd1\n\x7d", "a y\n\x7b\n(r2): m2\nd2\n\x7d"]) "a" =
      some { anchor := some "a", synonyms := ["y"], antonyms := [],
             meanings := ["a y"], roots := [⟨"r2", "m2"⟩],
             derived := [⟨"d2", "r2"⟩], contexts := [] }
    ∧ ("r1", some "a") ∈ (loadFrom emptyState
        ["a x\n\x7b\n(r1): m1\nd1\n\x7d", "a y\n\x7b\n(r2): m2\nd2\n\x7d"]).root_dict
    ∧ ("r1", some "d1") ∈ (loadFrom emptyState
        ["a x\n\x7b\n(r1): m1\nd1\n\x7d", "a y\n\x7b\n(r2): m2\nd2\n\x7d"]).root_dict
    ∧ ("r2", some "a") ∈ (loadFrom emptyState
        ["a x\n\x7b\n(r1): m1\nd1\n\x7d", "a y\n\x7b\n(r2): m2\nd2\n\x7d"]).root_dict
    ∧ ("r2", some "d2") ∈ (loadFrom emptyState
        ["a x\n\x7b\n(r1): m1\nd1\n\x7d", "a y\n\x7b\n(r2): m2\nd2\n\x7d"]).root_dict := by
  have h := C3_last_write_wins emptyState ["a x\n\x7b\n(r1): m1\nd1\n\x7d"] []
    "a y\n\x7b\n(r2): m2\nd2\n\x7d" "a"
    { anchor := some "a", synonyms := ["y"], antonyms := [],
      meanings := ["a y"], roots := [⟨"r2", "m2"⟩],
      derived := [⟨"d2", "r2"⟩], contexts := [] }
    [("r2", "m2", [⟨"d2", "r2"⟩])]
    (by decide) (by decide) (by intro g' hg'; cases hg')
  refine ⟨h.1, ?_, ?_, ?_, ?_⟩
  · exact h.2.1 ("r1", some "a") (by decide)
  · exact h.2.1 ("r1", some "d1") (by decide)
  · exact h.2.2.1 ⟨"r2", "m2"⟩ (by decide)
  · exact h.2.2.2.1 ⟨"d2", "r2"⟩ (by decide)

end Zeus
